import Mathlib

/-!
Verification of the storage and concurrency-control core of the bustub
repository against its natural-language specification.

Each C++ source file is shallowly embedded as executable Lean definitions:

* `LockMgr`  — src/concurrency/lock_manager.cpp
* `LRUK`     — src/buffer/lru_k_replacer.cpp
* `BPM`      — src/buffer/buffer_pool_manager_instance.cpp
* `EHT`      — src/container/hash/extendible_hash_table.cpp
* `BPT`      — src/storage/index/b_plus_tree.cpp, index_iterator.cpp and the
               two b_plus_tree_*_page.cpp files

Machine integers (`int`, `page_id_t`, `txn_id_t`) are embedded as `Int` or
`Nat`; every value handled by the modelled routines stays far below the
32/64-bit bounds, and all divisions are applied to non-negative operands, on
which C++ truncating division and Lean `Int` division agree.
-/

namespace LockMgr

/-- Lock modes of the lock manager (enum `LockMode` in lock_manager.h). -/
inductive LockMode where
  | intentionShared
  | intentionExclusive
  | shared
  | sharedIntentionExclusive
  | exclusive
deriving DecidableEq, Repr

/-- One entry of a lock request queue (`LockManager::LockRequest`): requesting
transaction id, requested mode and granted flag.  The C++ code identifies
requests by `shared_ptr` object identity; here a request is identified by its
transaction id, which is unique within a queue (at most one request per
transaction per object). -/
structure LockRequest where
  tid : Nat
  mode : LockMode
  granted : Bool
deriving DecidableEq, Repr

/-- The per-granted-request compatibility test of `LockManager::GrantLock`
(lock_manager.cpp:435-461): `grantAllows m h` is true when the switch on the
requested mode `m` does not return false for a granted request of mode `h`. -/
def grantAllows : LockMode → LockMode → Bool
  | .shared, h => !(h = .intentionExclusive || h = .sharedIntentionExclusive || h = .exclusive)
  | .exclusive, _ => false
  | .intentionShared, h => !(h = .exclusive)
  | .intentionExclusive, h => !(h = .shared || h = .sharedIntentionExclusive || h = .exclusive)
  | .sharedIntentionExclusive, h => h = .intentionShared


/-- The lock-compatibility matrix of spec section 4.6.1, transcribed row by
row from the table (✓ entries). -/
def specCompatible (m h : LockMode) : Bool :=
  match m, h with
  | .intentionShared, .exclusive => false
  | .intentionShared, _ => true
  | .intentionExclusive, .intentionShared => true
  | .intentionExclusive, .intentionExclusive => true
  | .intentionExclusive, _ => false
  | .shared, .intentionShared => true
  | .shared, .shared => true
  | .shared, _ => false
  | .sharedIntentionExclusive, .intentionShared => true
  | .sharedIntentionExclusive, _ => false
  | .exclusive, _ => false

/-- `LockManager::GrantLock` (lock_manager.cpp:431-469): walk the queue in
order; a granted entry must pass the compatibility switch, the first
ungranted entry must be the candidate request itself (the C++ pointer
comparison `lock_request.get() != lr.get()` becomes a transaction-id
comparison), and an empty or exhausted queue yields false. -/
def grantLock (req : LockRequest) : List LockRequest → Bool
  | [] => false
  | lr :: rest =>
    if lr.granted then
      if grantAllows req.mode lr.mode then grantLock req rest else false
    else
      if req.tid = lr.tid then true else false

/-- First ungranted entry of a queue, if any. -/
def firstUngranted : List LockRequest → Option LockRequest
  | [] => none
  | lr :: rest => if lr.granted then firstUngranted rest else some lr

/-- Isolation levels (`IsolationLevel` in transaction.h). -/
inductive IsolationLevel where
  | readUncommitted
  | readCommitted
  | repeatableRead
deriving DecidableEq, Repr

/-- Transaction states (`TransactionState` in transaction.h). -/
inductive TxnState where
  | growing
  | shrinking
  | committed
  | aborted
deriving DecidableEq, Repr

/-- Abort reasons thrown by the lock manager (`AbortReason` in
transaction.h). -/
inductive AbortReason where
  | lockOnShrinking
  | lockSharedOnReadUncommitted
  | upgradeConflict
  | incompatibleUpgrade
  | attemptedUnlockButNoLockHeld
  | tableUnlockedBeforeUnlockingRows
  | attemptedIntentionLockOnRow
  | tableLockNotPresent
deriving DecidableEq, Repr

/-- The portion of a transaction object the lock manager reads and writes:
id, isolation level, state and the five table lock sets (spec sections 3.4
and 6; `Transaction::IsTable*Locked` and the `GetTable*LockSet` accessors are
membership tests and updates on these sets). -/
structure Txn where
  tid : Nat
  isolation : IsolationLevel
  state : TxnState
  sharedTable : List Nat
  exclusiveTable : List Nat
  intentionSharedTable : List Nat
  intentionExclusiveTable : List Nat
  sharedIntentionExclusiveTable : List Nat
deriving DecidableEq, Repr

/-- The argument-validation stage of `LockManager::LockRow`
(lock_manager.cpp:204-243), executed before the queue is touched: the
intention-mode check, the three isolation-level checks and the table-lock
prerequisite check for exclusive row locks, in program order.  `some r`
means the call sets the transaction state to ABORTED and throws reason `r`;
`none` means control reaches the queueing code at line 245. -/
def lockRowCheck (txn : Txn) (mode : LockMode) (oid : Nat) : Option AbortReason :=
  if mode = .intentionExclusive ∨ mode = .intentionShared ∨ mode = .sharedIntentionExclusive then
    some .attemptedIntentionLockOnRow
  else if txn.isolation = .readUncommitted ∧
      (mode = .shared ∨ mode = .intentionShared ∨ mode = .sharedIntentionExclusive) then
    some .lockSharedOnReadUncommitted
  else if txn.isolation = .readUncommitted ∧ txn.state = .shrinking ∧
      (mode = .exclusive ∨ mode = .intentionExclusive) then
    some .lockOnShrinking
  else if txn.isolation = .readCommitted ∧ txn.state = .shrinking ∧
      mode ≠ .intentionShared ∧ mode ≠ .shared then
    some .lockOnShrinking
  else if txn.isolation = .repeatableRead ∧ txn.state = .shrinking then
    some .lockOnShrinking
  else if mode = .exclusive ∧
      ¬(oid ∈ txn.exclusiveTable ∨ oid ∈ txn.intentionExclusiveTable ∨
        oid ∈ txn.sharedIntentionExclusiveTable) then
    some .tableLockNotPresent
  else
    none

/-- The isolation-level validation stage of `LockManager::LockTable`
(lock_manager.cpp:24-50): identical to the row checks minus the row-specific
ones. -/
def tableIsoCheck (txn : Txn) (mode : LockMode) : Option AbortReason :=
  if txn.isolation = .readUncommitted ∧
      (mode = .shared ∨ mode = .intentionShared ∨ mode = .sharedIntentionExclusive) then
    some .lockSharedOnReadUncommitted
  else if txn.isolation = .readUncommitted ∧ txn.state = .shrinking ∧
      (mode = .exclusive ∨ mode = .intentionExclusive) then
    some .lockOnShrinking
  else if txn.isolation = .readCommitted ∧ txn.state = .shrinking ∧
      mode ≠ .intentionShared ∧ mode ≠ .shared then
    some .lockOnShrinking
  else if txn.isolation = .repeatableRead ∧ txn.state = .shrinking then
    some .lockOnShrinking
  else
    none

/-- Permitted lock-upgrade transitions (lock_manager.cpp:78-85):
IS→S/X/IX/SIX, S→X/SIX, IX→X/SIX, SIX→X. -/
def upgradeAllowed : LockMode → LockMode → Bool
  | .intentionShared, m =>
      m = .shared || m = .exclusive || m = .intentionExclusive || m = .sharedIntentionExclusive
  | .shared, m => m = .exclusive || m = .sharedIntentionExclusive
  | .intentionExclusive, m => m = .exclusive || m = .sharedIntentionExclusive
  | .sharedIntentionExclusive, m => m = .exclusive
  | .exclusive, _ => false

/-- `LockManager::InsertOrDeleteTableLockSet` with `insert = true`
(lock_manager.cpp:390-429). -/
def insertTableLockSet (txn : Txn) (mode : LockMode) (oid : Nat) : Txn :=
  match mode with
  | .shared => { txn with sharedTable := oid :: txn.sharedTable }
  | .exclusive => { txn with exclusiveTable := oid :: txn.exclusiveTable }
  | .intentionShared => { txn with intentionSharedTable := oid :: txn.intentionSharedTable }
  | .intentionExclusive =>
      { txn with intentionExclusiveTable := oid :: txn.intentionExclusiveTable }
  | .sharedIntentionExclusive =>
      { txn with sharedIntentionExclusiveTable := oid :: txn.sharedIntentionExclusiveTable }

/-- `LockManager::InsertOrDeleteTableLockSet` with `insert = false`. -/
def removeTableLockSet (txn : Txn) (mode : LockMode) (oid : Nat) : Txn :=
  match mode with
  | .shared => { txn with sharedTable := txn.sharedTable.erase oid }
  | .exclusive => { txn with exclusiveTable := txn.exclusiveTable.erase oid }
  | .intentionShared => { txn with intentionSharedTable := txn.intentionSharedTable.erase oid }
  | .intentionExclusive =>
      { txn with intentionExclusiveTable := txn.intentionExclusiveTable.erase oid }
  | .sharedIntentionExclusive =>
      { txn with sharedIntentionExclusiveTable := txn.sharedIntentionExclusiveTable.erase oid }

/-- One lock request queue (`LockManager::LockRequestQueue`): the request
list and the `upgrading_` marker (`none` models `INVALID_TXN_ID`). -/
structure LockRequestQueue where
  queue : List LockRequest
  upgrading : Option Nat
deriving DecidableEq, Repr

/-- Splice a request in front of the first ungranted entry
(lock_manager.cpp:97-104). -/
def insertBeforeFirstUngranted (r : LockRequest) : List LockRequest → List LockRequest
  | [] => [r]
  | lr :: rest =>
    if lr.granted then lr :: insertBeforeFirstUngranted r rest else r :: lr :: rest

/-- Set the granted flag of the request of transaction `t`
(`lock_request->granted_ = true` through the shared pointer). -/
def setGranted (l : List LockRequest) (t : Nat) : List LockRequest :=
  l.map fun r => if r.tid = t then { r with granted := true } else r

/-- Result of the non-blocking prefix of `LockManager::LockTable`. -/
inductive LockTableOutcome where
  | ret (b : Bool)
  | aborted (r : AbortReason)
  | waiting
deriving DecidableEq, Repr

/-- `LockManager::LockTable` (lock_manager.cpp:21-150) up to its first
blocking point, as a function of the transaction and the queue of table
`oid`: isolation checks, then the scan for an existing request of this
transaction (same mode → immediate true; different mode → upgrade protocol),
else enqueue at the tail.  `GrantLock` is evaluated once; if it fails the
thread would block on the condition variable, reported as `.waiting`
alongside the already-modified queue. -/
def lockTableStep (txn : Txn) (mode : LockMode) (oid : Nat) (q : LockRequestQueue) :
    LockTableOutcome × Txn × LockRequestQueue :=
  match tableIsoCheck txn mode with
  | some r => (.aborted r, { txn with state := .aborted }, q)
  | none =>
    match q.queue.find? (fun lr => lr.tid == txn.tid) with
    | some req =>
      if req.mode = mode then
        (.ret true, txn, q)
      else if q.upgrading ≠ none then
        (.aborted .upgradeConflict, { txn with state := .aborted }, q)
      else if ¬ upgradeAllowed req.mode mode then
        (.aborted .incompatibleUpgrade, { txn with state := .aborted }, q)
      else
        let txn1 := removeTableLockSet txn req.mode oid
        let newReq : LockRequest := ⟨txn.tid, mode, false⟩
        let q2 : LockRequestQueue :=
          ⟨insertBeforeFirstUngranted newReq (q.queue.erase req), some txn.tid⟩
        if grantLock newReq q2.queue then
          (.ret true, insertTableLockSet txn1 mode oid, ⟨setGranted q2.queue txn.tid, none⟩)
        else
          (.waiting, txn1, q2)
    | none =>
      let newReq : LockRequest := ⟨txn.tid, mode, false⟩
      let q1 : LockRequestQueue := ⟨q.queue ++ [newReq], q.upgrading⟩
      if grantLock newReq q1.queue then
        (.ret true, insertTableLockSet txn mode oid, ⟨setGranted q1.queue txn.tid, q.upgrading⟩)
      else
        (.waiting, txn, q1)

end LockMgr

namespace LRUK

/-- State of the LRU-K replacer (lru_k_replacer.h): the under-K FIFO list
`inf_history_list_`, the at-least-K LRU list `history_list_`, the access-count
map `count_map_`, the set `non_evictable_set_` and the cached evictable count
`curr_size_`, plus the constructor parameters. -/
structure RState where
  k : Nat
  replacerSize : Nat
  infList : List Nat
  histList : List Nat
  countMap : List (Nat × Nat)
  nonEvict : List Nat
  currSize : Nat
deriving DecidableEq, Repr

/-- `count_map_.count(f) != 0` / `count_map_[f]` as a lookup. -/
def lookupCount (m : List (Nat × Nat)) (f : Nat) : Option Nat :=
  (m.find? (fun p => p.1 == f)).map Prod.snd

/-- `count_map_[f] = c` (insert or assign). -/
def setCount (m : List (Nat × Nat)) (f c : Nat) : List (Nat × Nat) :=
  if (m.find? (fun p => p.1 == f)).isSome then
    m.map (fun p => if p.1 = f then (f, c) else p)
  else m ++ [(f, c)]

/-- `count_map_.erase(f)`. -/
def eraseCount (m : List (Nat × Nat)) (f : Nat) : List (Nat × Nat) :=
  m.filter (fun p => p.1 != f)

/-- `LRUKReplacer::Evict` (lru_k_replacer.cpp:19-43): nothing to do when
`curr_size_` is zero; otherwise the first evictable frame of the under-K
FIFO list, else the first evictable frame of the at-least-K list; the victim
leaves its list and the count map. -/
def evict (s : RState) : Option (Nat × RState) :=
  if s.currSize = 0 then none
  else
    match s.infList.find? (fun f => !(s.nonEvict.contains f)) with
    | some f =>
      some (f, { s with countMap := eraseCount s.countMap f,
                        infList := s.infList.erase f, currSize := s.currSize - 1 })
    | none =>
      match s.histList.find? (fun f => !(s.nonEvict.contains f)) with
      | some f =>
        some (f, { s with countMap := eraseCount s.countMap f,
                          histList := s.histList.erase f, currSize := s.currSize - 1 })
      | none => none

/-- `LRUKReplacer::RecordAccess` (lru_k_replacer.cpp:45-82).  `none` models
the `BUSTUB_ASSERT(frame_id, ...)` abort, which fires exactly when the guard
is reached with `frame_id == 0`. -/
def recordAccess (s : RState) (f : Nat) : Option RState :=
  match lookupCount s.countMap f with
  | none =>
    if s.currSize = s.replacerSize ∧ f = 0 then none
    else some { s with infList := s.infList ++ [f],
                       countMap := setCount s.countMap f 1,
                       currSize := s.currSize + 1 }
  | some c =>
    if s.k ≤ c ∧ s.histList.contains f then
      some { s with histList := s.histList.erase f ++ [f],
                    countMap := setCount s.countMap f (c + 1) }
    else
      let s1 := { s with countMap := setCount s.countMap f (c + 1) }
      if s.k ≤ c + 1 ∧ s1.infList.contains f then
        some { s1 with infList := s1.infList.erase f, histList := s1.histList ++ [f] }
      else some s1

/-- `LRUKReplacer::SetEvictable` (lru_k_replacer.cpp:84-97).  `none` models
the assert abort (untracked frame 0). -/
def setEvictable (s : RState) (f : Nat) (flag : Bool) : Option RState :=
  if lookupCount s.countMap f = none ∧ f = 0 then none
  else if ¬ s.nonEvict.contains f ∧ flag = false then
    some { s with nonEvict := f :: s.nonEvict, currSize := s.currSize - 1 }
  else if s.nonEvict.contains f ∧ flag = true then
    some { s with nonEvict := s.nonEvict.erase f, currSize := s.currSize + 1 }
  else some s

/-- `LRUKReplacer::Remove` (lru_k_replacer.cpp:99-124).  `none` models the
`throw` on a non-evictable frame.  Note the count-map entry is left behind. -/
def removeFrame (s : RState) (f : Nat) : Option RState :=
  match lookupCount s.countMap f with
  | none => some s
  | some c =>
    if s.nonEvict.contains f then none
    else if s.k ≤ c ∧ s.histList.contains f then
      some { s with histList := s.histList.erase f, currSize := s.currSize - 1 }
    else if s.infList.contains f then
      some { s with infList := s.infList.erase f, currSize := s.currSize - 1 }
    else some s

/-- Operations a client can issue against the replacer, used to build
concrete reachable states. -/
inductive ROp where
  | acc (f : Nat)
  | setEv (f : Nat) (flag : Bool)
  | rem (f : Nat)
deriving DecidableEq, Repr

def applyROp (s : RState) : ROp → Option RState
  | .acc f => recordAccess s f
  | .setEv f b => setEvictable s f b
  | .rem f => removeFrame s f

def replay : RState → List ROp → Option RState
  | s, [] => some s
  | s, op :: rest =>
    match applyROp s op with
    | none => none
    | some s' => replay s' rest

/-- Freshly constructed replacer (`LRUKReplacer::LRUKReplacer`). -/
def newReplacer (numFrames k : Nat) : RState := ⟨k, numFrames, [], [], [], [], 0⟩

end LRUK

namespace BPM

/-- Per-frame metadata of a buffer-pool frame (`Page` members read by the
manager: `page_id_`, `pin_count_`, `is_dirty_`). -/
structure Frame where
  pageId : Int
  pinCount : Int
  isDirty : Bool
deriving DecidableEq, Repr

/-- Metadata state of `BufferPoolManagerInstance`: the page-id → frame-id
directory (`page_table_`, an extendible hash table, abstracted to the mapping
it implements), the frame array `pages_`, the free list and the replacer. -/
structure PState where
  pageTable : List (Int × Nat)
  frames : List Frame
  freeList : List Nat
  replacer : LRUK.RState
deriving DecidableEq, Repr

/-- `page_table_->Find(page_id, frame_id)`. -/
def tableFind (pt : List (Int × Nat)) (pid : Int) : Option Nat :=
  (pt.find? (fun p => p.1 == pid)).map Prod.snd

/-- `BufferPoolManagerInstance::UnpinPgImp`
(buffer_pool_manager_instance.cpp:106-127): false on a directory miss or a
non-positive pin count; otherwise decrement the pin count, OR the dirty flag
in, and mark the frame evictable when the pin count has dropped to zero.
`none` models the assert abort inside `SetEvictable`. -/
def unpinPg (st : PState) (pid : Int) (isDirty : Bool) : Option (Bool × PState) :=
  match tableFind st.pageTable pid with
  | none => some (false, st)
  | some fid =>
    let fr := st.frames.getD fid ⟨-1, 0, false⟩
    if fr.pinCount ≤ 0 then some (false, st)
    else
      let fr1 : Frame := { fr with pinCount := fr.pinCount - 1,
                                   isDirty := fr.isDirty || isDirty }
      let st1 := { st with frames := st.frames.set fid fr1 }
      if fr1.pinCount ≤ 0 then
        match LRUK.setEvictable st1.replacer fid true with
        | none => none
        | some r => some (true, { st1 with replacer := r })
      else some (true, st1)

end BPM

namespace EHT

/-- One bucket of the extendible hash table: item list and local depth. -/
structure Bucket where
  items : List (Nat × Nat)
  depth : Nat
deriving DecidableEq, Repr

/-- State of `ExtendibleHashTable`: global depth, bucket capacity, bucket
count, the directory of bucket references and the bucket heap.  The C++
directory holds `shared_ptr<Bucket>` values, several of which may alias one
bucket; aliasing is modelled by directory slots holding bucket ids resolved
through the `buckets` association list.  The hash function (`std::hash`) is a
parameter of the operations. -/
structure HState where
  globalDepth : Nat
  bucketSize : Nat
  numBuckets : Nat
  dir : List Nat
  buckets : List (Nat × Bucket)
  nextBucket : Nat
deriving DecidableEq, Repr

/-- `IndexOf` (extendible_hash_table.cpp:31-35): the low `globalDepth` bits
of the hash, `hash(key) & ((1 << G) - 1)`, written as a remainder. -/
def indexOf (hash : Nat → Nat) (g : Nat) (k : Nat) : Nat := hash k % 2 ^ g

def getBucket (t : HState) (bid : Nat) : Bucket :=
  ((t.buckets.find? (fun p => p.1 == bid)).map Prod.snd).getD ⟨[], 0⟩

def setBucket (t : HState) (bid : Nat) (b : Bucket) : HState :=
  { t with buckets := t.buckets.map fun p => if p.1 = bid then (bid, b) else p }

/-- `Bucket::Find` (extendible_hash_table.cpp:146-155): first match wins. -/
def bucketFind (b : Bucket) (k : Nat) : Option Nat :=
  (b.items.find? (fun p => p.1 == k)).map Prod.snd

/-- Overwrite the value of the first pair holding key `k`
(the update loop of `Bucket::Insert`). -/
def overwriteFirst (l : List (Nat × Nat)) (k v : Nat) : List (Nat × Nat) :=
  match l with
  | [] => []
  | p :: rest => if p.1 = k then (k, v) :: rest else p :: overwriteFirst rest k v

/-- `Bucket::Insert` (extendible_hash_table.cpp:168-183): update in place if
the key exists, fail if the bucket is full, else append. -/
def bucketInsert (bsize : Nat) (b : Bucket) (k v : Nat) : Bool × Bucket :=
  if (b.items.find? (fun p => p.1 == k)).isSome then
    (true, { b with items := overwriteFirst b.items k v })
  else if bsize ≤ b.items.length then (false, b)
  else (true, { b with items := b.items ++ [(k, v)] })

/-- `ExtendibleHashTable::Find` (extendible_hash_table.cpp:70-74). -/
def find (hash : Nat → Nat) (t : HState) (k : Nat) : Option Nat :=
  bucketFind (getBucket t (t.dir.getD (indexOf hash t.globalDepth k) 0)) k

/-- `dir_[rehash_index]->GetItems().push_back(item)`. -/
def appendToBucket (t : HState) (bid : Nat) (item : Nat × Nat) : HState :=
  setBucket t bid
    (let b := getBucket t bid; { b with items := b.items ++ [item] })

/-- The rehash loop of `InsertInternal` (extendible_hash_table.cpp:124-134):
walk the split bucket's items in order; an item whose rehash index differs in
the overflow bit is appended to the bucket its rehash index points to and
erased from the split bucket (the first component collects the survivors). -/
def redistLoop (hash : Nat → Nat) (bi overflow : Nat) :
    List (Nat × Nat) → HState → List (Nat × Nat) × HState
  | [], t => ([], t)
  | item :: rest, t =>
    let ri := indexOf hash t.globalDepth item.1
    if (ri &&& overflow) != (bi &&& overflow) then
      redistLoop hash bi overflow rest (appendToBucket t (t.dir.getD ri 0) item)
    else
      let (rest', t') := redistLoop hash bi overflow rest t
      (item :: rest', t')

/-- The split sequence of `ExtendibleHashTable::InsertInternal`
(extendible_hash_table.cpp:97-134) on a full bucket `bid` at directory slot
`bi`: double the directory when the bucket's local depth equals the global
depth (lines 97-106, each new slot i aliasing slot `i & ((1 << G) - 1)`),
increment the bucket's local depth (line 108), allocate the sibling bucket
at the slot differing in the new high bit and repoint every alias of that
slot (lines 110-121), then rehash the split bucket's items by the new bit
(lines 124-134).  The `pow` calls are exact on these ranges and become
`Nat` powers. -/
def splitStep (hash : Nat → Nat) (t : HState) (bi bid : Nat) : HState :=
  let t1 :=
    if (getBucket t bid).depth = t.globalDepth then
      { t with dir := t.dir ++ t.dir, globalDepth := t.globalDepth + 1 }
    else t
  let t2 := setBucket t1 bid
    (let b := getBucket t1 bid; { b with depth := b.depth + 1 })
  let bucketDepth := (getBucket t2 bid).depth
  let overflow := 2 ^ (bucketDepth - 1)
  let mask := 2 ^ bucketDepth - 1
  let rawIndex := (bi ^^^ overflow) &&& mask
  let nb := t2.nextBucket
  let t3 : HState :=
    { t2 with dir := t2.dir.set rawIndex nb,
              buckets := t2.buckets ++ [(nb, ⟨[], bucketDepth⟩)],
              numBuckets := t2.numBuckets + 1,
              nextBucket := nb + 1 }
  let t4 := (List.range (2 ^ (t3.globalDepth - bucketDepth))).foldl
    (fun acc i =>
      if i = 0 then acc
      else { acc with dir := acc.dir.set (rawIndex ||| (i <<< bucketDepth)) nb })
    t3
  let rs := redistLoop hash bi overflow (getBucket t4 bid).items t4
  setBucket rs.2 bid (let b := getBucket rs.2 bid; { b with items := rs.1 })

/-- `ExtendibleHashTable::InsertInternal` (extendible_hash_table.cpp:92-138):
try the bucket insert; on failure split and retry.  The recursion is bounded
by fuel; `none` means the fuel ran out (the C++ function would still be
looping). -/
def insertInternal (hash : Nat → Nat) : Nat → HState → Nat → Nat → Option HState
  | 0, _, _, _ => none
  | fuel + 1, t, k, v =>
    let bi := indexOf hash t.globalDepth k
    let bid := t.dir.getD bi 0
    let r := bucketInsert t.bucketSize (getBucket t bid) k v
    if r.1 then some (setBucket t bid r.2)
    else insertInternal hash fuel (splitStep hash t bi bid) k v

/-- `ExtendibleHashTable::Insert` (extendible_hash_table.cpp:82-86). -/
def insertTable (hash : Nat → Nat) (fuel : Nat) (t : HState) (k v : Nat) : Option HState :=
  insertInternal hash fuel t k v

/-- Freshly constructed table (extendible_hash_table.cpp:25-29): global depth
0, one empty bucket of local depth 0. -/
def newTable (bucketSize : Nat) : HState :=
  ⟨0, bucketSize, 1, [0], [(0, ⟨[], 0⟩)], 1⟩

/-- Directory well-formedness: the directory has `2 ^ globalDepth` slots and
every slot references an allocated bucket. -/
def WFdir (t : HState) : Prop :=
  t.dir.length = 2 ^ t.globalDepth ∧
    ∀ bid ∈ t.dir, (t.buckets.find? (fun p => p.1 == bid)).isSome

end EHT

namespace BPT

/-- A B+Tree page.  Keys are comparator-ordered integers (the templates are
instantiated at `GenericKey` holding an integer, compared by
`GenericComparator`); leaf values are record ids; child references and
`next_page_id`/`parent_page_id` are page ids with `-1` for
`INVALID_PAGE_ID`.  `IsRootPage` (b_plus_tree_page.h) is
`parent_page_id_ == INVALID_PAGE_ID`. -/
inductive Node where
  | leaf (entries : List (Int × Nat)) (next : Int) (parent : Int)
  | internal (entries : List (Int × Int)) (parent : Int)
deriving DecidableEq, Repr

/-- A B+Tree together with the pages it owns in the buffer pool: the page
store, `root_page_id_`, the page-id allocator and the two fan-out
parameters. -/
structure TreeState where
  pages : List (Int × Node)
  rootId : Int
  nextPageId : Int
  leafMax : Int
  internalMax : Int
deriving DecidableEq, Repr

/-- `buffer_pool_manager_->FetchPage` followed by the node cast. -/
def fetch (st : TreeState) (pid : Int) : Option Node :=
  (st.pages.find? (fun p => p.1 == pid)).map Prod.snd

def setPage (st : TreeState) (pid : Int) (n : Node) : TreeState :=
  { st with pages := st.pages.map fun p => if p.1 = pid then (pid, n) else p }

def addPage (st : TreeState) (pid : Int) (n : Node) : TreeState :=
  { st with pages := st.pages ++ [(pid, n)] }

/-- `buffer_pool_manager_->DeletePage`. -/
def erasePage (st : TreeState) (pid : Int) : TreeState :=
  { st with pages := st.pages.filter fun p => p.1 != pid }

def nodeParent : Node → Int
  | .leaf _ _ p => p
  | .internal _ p => p

def withParent : Node → Int → Node
  | .leaf e n _, p => .leaf e n p
  | .internal e _, p => .internal e p

/-- `GetSize()`: number of stored pairs (leaf) or children (internal). -/
def nodeSize : Node → Nat
  | .leaf e _ _ => e.length
  | .internal e _ => e.length

/-- `GetMinSize()`.  Modelled from the spec: b_plus_tree_page.cpp is not
part of the repository snapshot; spec section 3.2 fixes
`min_size = ⌈max_size/2⌉` for both page kinds, which is `(max_size + 1) / 2`
on non-negative sizes. -/
def minHalf (m : Int) : Nat := ((m + 1) / 2).toNat

def minSizeOf (st : TreeState) : Node → Nat
  | .leaf _ _ _ => minHalf st.leafMax
  | .internal _ _ => minHalf st.internalMax

/-- The binary-search loop shared by `BPlusTreeLeafPage::GetKeyIndex`
(b_plus_tree_leaf_page.cpp:126-144) and
`BPlusTreeInternalPage::GetKeyIndex` (b_plus_tree_internal_page.cpp:176-193):
search `keys` on the closed interval `[i, j]`; `(true, m)` on an exact hit,
otherwise `(false, i)` with `i` the lower-bound slot.  The interval shrinks
at every step, so a fuel of one more than the list length always suffices. -/
def bsearch (keys : List Int) (key : Int) : Nat → Int → Int → Bool × Int
  | 0, i, _ => (false, i)
  | fuel + 1, i, j =>
    if i ≤ j then
      let m := (j - i) / 2 + i
      let km := keys.getD m.toNat 0
      if km < key then bsearch keys key fuel (m + 1) j
      else if key < km then bsearch keys key fuel i (m - 1)
      else (true, m)
    else (false, i)

/-- `BPlusTreeLeafPage::GetKeyIndex`: search slots `[0, size-1]`. -/
def getKeyIndexL (entries : List (Int × Nat)) (key : Int) : Bool × Int :=
  bsearch (entries.map Prod.fst) key (entries.length + 1) 0 ((entries.length : Int) - 1)

/-- `BPlusTreeInternalPage::GetKeyIndex`: search slots `[1, size-1]` (slot 0
holds the sentinel key). -/
def getKeyIndexI (entries : List (Int × Int)) (key : Int) : Bool × Int :=
  bsearch (entries.map Prod.fst) key (entries.length + 1) 1 ((entries.length : Int) - 1)

def insertAt {α : Type} (l : List α) (i : Nat) (x : α) : List α :=
  l.take i ++ x :: l.drop i

def removeAt {α : Type} (l : List α) (i : Nat) : List α :=
  l.take i ++ l.drop (i + 1)

/-- Assign the key of slot `i` (`SetKeyAt`). -/
def setKeyAt {β : Type} (l : List (Int × β)) (i : Nat) (k : Int) : List (Int × β) :=
  match l.get? i with
  | some p => l.set i (k, p.2)
  | none => l

/-- `BPlusTreeLeafPage::Insert` (b_plus_tree_leaf_page.cpp:79-91): false on a
duplicate, else shift and place at the lower-bound slot. -/
def leafInsert (entries : List (Int × Nat)) (k : Int) (v : Nat) :
    Bool × List (Int × Nat) :=
  let r := getKeyIndexL entries k
  if r.1 then (false, entries)
  else (true, insertAt entries r.2.toNat (k, v))

/-- `BPlusTreeLeafPage::GetValue` (b_plus_tree_leaf_page.cpp:67-77). -/
def leafGetValue (entries : List (Int × Nat)) (k : Int) : Option Nat :=
  let r := getKeyIndexL entries k
  if r.1 then some ((entries.getD r.2.toNat (0, 0)).2) else none

/-- `BPlusTreeLeafPage::Remove` (b_plus_tree_leaf_page.cpp:117-124). -/
def leafRemove (entries : List (Int × Nat)) (k : Int) : List (Int × Nat) :=
  let r := getKeyIndexL entries k
  if r.1 then removeAt entries r.2.toNat else entries

/-- `BPlusTreeInternalPage::Insert` (b_plus_tree_internal_page.cpp:77-89). -/
def internalInsert (entries : List (Int × Int)) (k : Int) (child : Int) :
    Bool × List (Int × Int) :=
  let r := getKeyIndexI entries k
  if r.1 then (false, entries)
  else (true, insertAt entries r.2.toNat (k, child))

/-- `BPlusTreeInternalPage::GetValue` (b_plus_tree_internal_page.cpp:65-72):
route a key to the child at the hit slot, else at the slot left of the
lower bound. -/
def internalLookupChild (entries : List (Int × Int)) (k : Int) : Int :=
  let r := getKeyIndexI entries k
  if r.1 then (entries.getD r.2.toNat (0, -1)).2
  else (entries.getD (r.2 - 1).toNat (0, -1)).2

/-- The loop of `BPlusTreeInternalPage::GetValueIndex`
(b_plus_tree_internal_page.cpp:196-211): a binary search over the child
page-id array (which insertion orders by key, not by id). -/
def bsearchByVal (vals : List Int) (v : Int) : Nat → Int → Int → Option Int
  | 0, _, _ => none
  | fuel + 1, i, j =>
    if i ≤ j then
      let m := (j - i) / 2 + i
      let vm := vals.getD m.toNat (-1)
      if vm < v then bsearchByVal vals v fuel (m + 1) j
      else if v < vm then bsearchByVal vals v fuel i (m - 1)
      else some m
    else none

/-- `BPlusTreeInternalPage::GetValueIndex`: `none` when the search misses
(the caller's out-parameter then keeps its zero initialisation,
b_plus_tree.cpp:423-432). -/
def getValueIndex (entries : List (Int × Int)) (child : Int) : Option Int :=
  bsearchByVal (entries.map Prod.snd) child (entries.length + 1) 0
    ((entries.length : Int) - 1)

/-- Descent targets of `BPlusTree::GetLeafPage` (`ModeType`; the latch mode
itself has no effect on which leaf is reached). -/
inductive DescTarget where
  | byKey (k : Int)
  | leftmost
  | rightmost
deriving DecidableEq, Repr

/-- The descent loop of `BPlusTree::GetLeafPage` (b_plus_tree.cpp:300-347)
stripped of latching: follow child pointers from `pid` down to a leaf. -/
def descend (st : TreeState) (tgt : DescTarget) : Nat → Int → Option Int
  | 0, _ => none
  | fuel + 1, pid =>
    match fetch st pid with
    | some (.leaf _ _ _) => some pid
    | some (.internal entries _) =>
      let next :=
        match tgt with
        | .leftmost => (entries.getD 0 (0, -1)).2
        | .rightmost => (entries.getD (entries.length - 1) (0, -1)).2
        | .byKey k => internalLookupChild entries k
      descend st tgt fuel next
    | none => none

def getLeafPage (fuel : Nat) (st : TreeState) (tgt : DescTarget) : Option Int :=
  if st.rootId = -1 then none else descend st tgt fuel st.rootId

/-- `BPlusTree::GetValue` (b_plus_tree.cpp:34-44). -/
def getValue (fuel : Nat) (st : TreeState) (k : Int) : Option Nat :=
  if st.rootId = -1 then none
  else
    match getLeafPage fuel st (.byKey k) with
    | none => none
    | some lid =>
      match fetch st lid with
      | some (.leaf entries _ _) => leafGetValue entries k
      | _ => none

/-- `SetParentPageId` on each listed child
(`BPlusTreeInternalPage::CopyNFrom`, b_plus_tree_internal_page.cpp:112-121). -/
def reparentAll (st : TreeState) (children : List Int) (newParent : Int) : TreeState :=
  children.foldl
    (fun acc c =>
      match fetch acc c with
      | some n => setPage acc c (withParent n newParent)
      | none => acc)
    st

/-- `BPlusTree::InsertIntoParent` (b_plus_tree.cpp:350-384).  A split root
gets a fresh internal root with the two children (lines 352-364); otherwise
the separator/child pair enters the parent, which splits at
`(max_size + 1) / 2` when it exceeds `internal_max_size_`
(`BPlusTreeInternalPage::MoveHalfTo`, b_plus_tree_internal_page.cpp:101-109,
reparenting the moved children), and the new node's slot-0 key rises
recursively. -/
def insertIntoParent : Nat → TreeState → Int → Int → Int → Option (Bool × TreeState)
  | 0, _, _, _, _ => none
  | fuel + 1, st, oldId, newId, risen =>
    match fetch st oldId with
    | none => none
    | some old =>
      if nodeParent old = -1 then
        let rid := st.nextPageId
        let st1 := addPage st rid (.internal [(0, oldId), (risen, newId)] (-1))
        let st2 := { st1 with rootId := rid, nextPageId := rid + 1 }
        let st3 :=
          match fetch st2 oldId with
          | some n => setPage st2 oldId (withParent n rid)
          | none => st2
        let st4 :=
          match fetch st3 newId with
          | some n => setPage st3 newId (withParent n rid)
          | none => st3
        some (true, st4)
      else
        match fetch st (nodeParent old) with
        | some (.internal pentries pparent) =>
          let parentId := nodeParent old
          let r := internalInsert pentries risen newId
          let st1 := setPage st parentId (.internal r.2 pparent)
          if (r.2.length : Int) ≤ st.internalMax then some (r.1, st1)
          else
            let remain := ((st.internalMax + 1) / 2).toNat
            let keep := r.2.take remain
            let moved := r.2.drop remain
            let newPid := st1.nextPageId
            let st2 := setPage st1 parentId (.internal keep pparent)
            let st3 := addPage st2 newPid (.internal moved pparent)
            let st4 := { st3 with nextPageId := newPid + 1 }
            let st5 := reparentAll st4 (moved.map Prod.snd) newPid
            let prisen := (moved.getD 0 (0, -1)).1
            insertIntoParent fuel st5 parentId newPid prisen
        | _ => none

/-- `BPlusTree::Insert` (b_plus_tree.cpp:57-94).  An empty tree gets a fresh
root leaf (lines 60-70); otherwise the key enters the descent leaf (false on
a duplicate, lines 72-79); a leaf that has reached `leaf_max_size_` splits,
keeping `GetMinSize()` entries and threading the new right sibling into the
next-pointer chain (`Split` + `BPlusTreeLeafPage::MoveHalfTo`,
b_plus_tree.cpp:278-297 and b_plus_tree_leaf_page.cpp:99-114), and the new
leaf's first key rises into the parent. -/
def insert (fuel : Nat) (st : TreeState) (k : Int) (v : Nat) :
    Option (Bool × TreeState) :=
  if st.rootId = -1 then
    let pid := st.nextPageId
    let r := leafInsert [] k v
    let st1 := addPage st pid (.leaf r.2 (-1) (-1))
    some (r.1, { st1 with rootId := pid, nextPageId := pid + 1 })
  else
    match getLeafPage fuel st (.byKey k) with
    | none => none
    | some lid =>
      match fetch st lid with
      | some (.leaf entries next parent) =>
        let r := leafInsert entries k v
        if ¬ r.1 then some (false, st)
        else
          let st1 := setPage st lid (.leaf r.2 next parent)
          if (r.2.length : Int) < st.leafMax then some (true, st1)
          else
            let remain := minHalf st.leafMax
            let keep := r.2.take remain
            let moved := r.2.drop remain
            let newId := st1.nextPageId
            let st2 := setPage st1 lid (.leaf keep newId parent)
            let st3 := addPage st2 newId (.leaf moved next parent)
            let st4 := { st3 with nextPageId := newId + 1 }
            let risen := (moved.getD 0 (0, 0)).1
            insertIntoParent fuel st4 lid newId risen
      | _ => none

/-- `BPlusTree::CoalesceOrRedistribute` (b_plus_tree.cpp:387-511).  The C++
template parameter is erased: the code branches on the dynamic page type via
`IsLeafPage()` exactly as modelled here.  The node's position among the
parent's children comes from `GetValueIndex` — a binary search over the
unsorted child-id array — and stays at its zero initialisation on a miss
(lines 423-432).  The sibling is the previous child when the index is
non-zero, else the next one; a sibling above `GetMinSize()` lends one entry
(`MoveFirstToEndOf`/`MoveLastToFrontOf`), otherwise the two nodes merge into
the left one (`MoveAllTo`), the separator leaves the parent and the parent
recurses.  The leaf borrow/merge helpers are not in the repository snapshot
and are modelled from spec section 4.4 (borrow moves one entry across,
merge appends all entries into the left node and rethreads `next_page_id`);
the internal ones follow b_plus_tree_internal_page.cpp:124-173.  Pages put
into the transaction's deleted-page set are deleted from the pool when the
latch chain unwinds (ReleaseLatch, b_plus_tree.cpp:556-575); the model
deletes them at the recording point. -/
def coalesceOrRedistribute : Nat → TreeState → Int → Option (Bool × TreeState)
  | 0, _, _ => none
  | fuel + 1, st, pid =>
    match fetch st pid with
    | none => none
    | some page =>
      if minSizeOf st page ≤ nodeSize page then some (false, st)
      else if nodeParent page = -1 then
        match page with
        | .leaf entries _ _ =>
          if entries.length = 0 then
            some (true, { (erasePage st pid) with rootId := -1 })
          else none
        | .internal entries _ =>
          if entries.length = 1 then
            let childId := (entries.getD 0 (0, -1)).2
            match fetch st childId with
            | none => none
            | some child =>
              let st1 := setPage st childId (withParent child (-1))
              let st2 := { st1 with rootId := childId }
              some (true, erasePage st2 pid)
          else none
      else
        match fetch st (nodeParent page) with
        | some (.internal pentries pparent) =>
          let parentId := nodeParent page
          let index := (getValueIndex pentries pid).getD 0
          let fromPrev := index ≠ 0
          let siblingIndex := if fromPrev then index - 1 else index + 1
          let siblingId := (pentries.getD siblingIndex.toNat (0, -1)).2
          match fetch st siblingId, page with
          | some (.leaf sentries snext sparent), .leaf entries next parent =>
            if minHalf st.leafMax < sentries.length then
              if ¬ fromPrev then
                let movedItem := sentries.getD 0 (0, 0)
                let st1 := setPage st pid (.leaf (entries ++ [movedItem]) next parent)
                let st2 := setPage st1 siblingId (.leaf (sentries.drop 1) snext sparent)
                let pkey := ((sentries.drop 1).getD 0 (0, 0)).1
                some (false, setPage st2 parentId (.internal (setKeyAt pentries 1 pkey) pparent))
              else
                let movedItem := sentries.getD (sentries.length - 1) (0, 0)
                let entries2 := movedItem :: entries
                let st1 := setPage st pid (.leaf entries2 next parent)
                let st2 := setPage st1 siblingId
                  (.leaf (sentries.take (sentries.length - 1)) snext sparent)
                let pkey := movedItem.1
                some (false,
                  setPage st2 parentId (.internal (setKeyAt pentries index.toNat pkey) pparent))
            else
              if ¬ fromPrev then
                let st1 := setPage st pid (.leaf (entries ++ sentries) snext parent)
                let st2 := setPage st1 parentId (.internal (removeAt pentries 1) pparent)
                let st3 := erasePage st2 siblingId
                match coalesceOrRedistribute fuel st3 parentId with
                | none => none
                | some r => some (false, r.2)
              else
                let st1 := setPage st siblingId (.leaf (sentries ++ entries) next sparent)
                let st2 := setPage st1 parentId
                  (.internal (removeAt pentries index.toNat) pparent)
                let st3 := erasePage st2 pid
                match coalesceOrRedistribute fuel st3 parentId with
                | none => none
                | some r => some (true, r.2)
          | some (.internal sentries sparent), .internal entries parent =>
            if minHalf st.internalMax < sentries.length then
              if ¬ fromPrev then
                let middle := (pentries.getD 1 (0, -1)).1
                let movedItem := (middle, (sentries.getD 0 (0, -1)).2)
                let st1 := setPage st pid (.internal (entries ++ [movedItem]) parent)
                let st2 := setPage st1 siblingId (.internal (sentries.drop 1) sparent)
                let st3 := reparentAll st2 [movedItem.2] pid
                let pkey := ((sentries.drop 1).getD 0 (0, -1)).1
                some (false,
                  setPage st3 parentId (.internal (setKeyAt pentries 1 pkey) pparent))
              else
                let middle := (pentries.getD index.toNat (0, -1)).1
                let lastItem := sentries.getD (sentries.length - 1) (0, -1)
                let entries2 := lastItem :: setKeyAt entries 0 middle
                let st1 := setPage st pid (.internal entries2 parent)
                let st2 := setPage st1 siblingId
                  (.internal (sentries.take (sentries.length - 1)) sparent)
                let st3 := reparentAll st2 [lastItem.2] pid
                some (false,
                  setPage st3 parentId
                    (.internal (setKeyAt pentries index.toNat lastItem.1) pparent))
            else
              if ¬ fromPrev then
                let middle := (pentries.getD 1 (0, -1)).1
                let movedAll := setKeyAt sentries 0 middle
                let st1 := setPage st pid (.internal (entries ++ movedAll) parent)
                let st2 := setPage st1 siblingId (.internal [] sparent)
                let st3 := reparentAll st2 (movedAll.map Prod.snd) pid
                let st4 := setPage st3 parentId (.internal (removeAt pentries 1) pparent)
                let st5 := erasePage st4 siblingId
                match coalesceOrRedistribute fuel st5 parentId with
                | none => none
                | some r => some (false, r.2)
              else
                let middle := (pentries.getD index.toNat (0, -1)).1
                let movedAll := setKeyAt entries 0 middle
                let st1 := setPage st siblingId (.internal (sentries ++ movedAll) sparent)
                let st2 := setPage st1 pid (.internal [] parent)
                let st3 := reparentAll st2 (movedAll.map Prod.snd) siblingId
                let st4 := setPage st3 parentId
                  (.internal (removeAt pentries index.toNat) pparent)
                let st5 := erasePage st4 pid
                match coalesceOrRedistribute fuel st5 parentId with
                | none => none
                | some r => some (true, r.2)
          | _, _ => none
        | _ => none

/-- `BPlusTree::Remove` (b_plus_tree.cpp:107-140): nothing on an empty tree
or an absent key; otherwise the key leaves the descent leaf, and a leaf
fallen below `GetMinSize()` goes through `CoalesceOrRedistribute`. -/
def remove (fuel : Nat) (st : TreeState) (k : Int) : Option TreeState :=
  if st.rootId = -1 then some st
  else
    match getLeafPage fuel st (.byKey k) with
    | none => none
    | some lid =>
      match fetch st lid with
      | some (.leaf entries next parent) =>
        let entries' := leafRemove entries k
        if entries'.length = entries.length then some st
        else
          let st1 := setPage st lid (.leaf entries' next parent)
          if minHalf st.leafMax ≤ entries'.length then some st1
          else
            match coalesceOrRedistribute fuel st1 lid with
            | none => none
            | some r => some r.2
      | _ => none

/-- `BPlusTree::Begin(key)` (b_plus_tree.cpp:166-178) together with the
iterator representation: an iterator is a (leaf page id, slot) pair and
`none` is the default-constructed invalid iterator (what the not-found
branch at line 177 returns, and what an empty tree's `Begin`/`End`
return). -/
def beginAt (fuel : Nat) (st : TreeState) (k : Int) : Option (Int × Nat) :=
  if st.rootId = -1 then none
  else
    match getLeafPage fuel st (.byKey k) with
    | none => none
    | some lid =>
      match fetch st lid with
      | some (.leaf entries _ _) =>
        let r := getKeyIndexL entries k
        if r.1 then some (lid, r.2.toNat) else none
      | _ => none

/-- Entries visited from a leaf onwards by repeated
`IndexIterator::operator++` (index_iterator.cpp:54-65): every slot of the
current leaf, then the leaf at `next_page_id` until `INVALID_PAGE_ID`. -/
def chainEntries (st : TreeState) : Nat → Int → List (Int × Nat)
  | 0, _ => []
  | fuel + 1, pid =>
    if pid = -1 then []
    else
      match fetch st pid with
      | some (.leaf entries next _) => entries ++ chainEntries st fuel next
      | _ => []

/-- Forward iteration from `BPlusTree::Begin()` (b_plus_tree.cpp:151-158,
leftmost leaf, slot 0) to `End()`. -/
def iterate (fuel : Nat) (st : TreeState) : List (Int × Nat) :=
  match getLeafPage fuel st .leftmost with
  | none => []
  | some lid => chainEntries st fuel lid

/-- A call of the public mutating interface. -/
inductive TreeOp where
  | ins (k : Int) (v : Nat)
  | del (k : Int)
deriving DecidableEq, Repr

def applyOp (fuel : Nat) (st : TreeState) : TreeOp → Option TreeState
  | .ins k v => (insert fuel st k v).map Prod.snd
  | .del k => remove fuel st k

def applyOps (fuel : Nat) : TreeState → List TreeOp → Option TreeState
  | st, [] => some st
  | st, op :: rest =>
    match applyOp fuel st op with
    | none => none
    | some st' => applyOps fuel st' rest

/-- A fresh tree (`BPlusTree::BPlusTree`): empty page store, invalid root. -/
def newTree (leafMax internalMax : Int) : TreeState :=
  ⟨[], -1, 1, leafMax, internalMax⟩

/-- The page-header fields `BPlusTree::IsSafe` reads. -/
structure NodeDesc where
  isLeaf : Bool
  isRoot : Bool
  size : Int
  maxSize : Int
  minSize : Int
deriving DecidableEq, Repr

/-- `ModeType` (b_plus_tree.h:27). -/
inductive ModeType where
  | search
  | searchLeftmost
  | searchRightmost
  | insert
  | delete
deriving DecidableEq, Repr

/-- `BPlusTree::IsSafe` (b_plus_tree.cpp:619-650). -/
def isSafe (leafMaxSize internalMaxSize : Int) (n : NodeDesc) (mode : ModeType) : Bool :=
  if mode = .insert then
    if n.isLeaf then n.size < n.maxSize - 1 else n.size ≤ n.maxSize - 1
  else if mode = .delete then
    if n.isRoot then
      if n.isLeaf then leafMaxSize / 2 + 1 ≤ n.size
      else (internalMaxSize + 1) / 2 + 1 ≤ n.size
    else n.minSize + 1 ≤ n.size
  else true

/-- Ceiling halving on the claims' side: `⌈x/2⌉` for non-negative `x`. -/
def ceilHalf (x : Int) : Int := (x + 1) / 2

/-- The safety predicate exactly as claim C5 states it, ceilings read as real
ceilings. -/
def claimSafe (leafMaxSize internalMaxSize : Int) (n : NodeDesc) : ModeType → Bool
  | .insert => if n.isLeaf then n.size < n.maxSize - 1 else n.size ≤ n.maxSize - 1
  | .delete =>
    if n.isRoot then
      if n.isLeaf then ceilHalf leafMaxSize + 1 ≤ n.size
      else ceilHalf (internalMaxSize + 1) + 1 ≤ n.size
    else n.minSize + 1 ≤ n.size
  | _ => true

end BPT

namespace LRUK

/-- The tracked frame `f` has fewer than K recorded accesses. -/
def countLT (s : RState) (f : Nat) : Bool :=
  match lookupCount s.countMap f with
  | some c => c < s.k
  | none => false

/-- The tracked frame `f` has at least K recorded accesses. -/
def countGE (s : RState) (f : Nat) : Bool :=
  match lookupCount s.countMap f with
  | some c => s.k ≤ c
  | none => false

/-- The frame is not pinned (`non_evictable_set_.count(f) == 0`). -/
def evictableB (s : RState) (f : Nat) : Bool := !(s.nonEvict.contains f)

/-- A replacer state conforming to the data model of spec section 4.2: the
two class lists are disjoint and duplicate-free, the under-K list holds
exactly frames with fewer than K recorded accesses, the at-least-K list
frames with at least K, and `curr_size_` counts the evictable tracked
frames. -/
def WF (s : RState) : Prop :=
  s.infList.Nodup ∧ s.histList.Nodup ∧
  (∀ f ∈ s.infList, f ∉ s.histList) ∧
  (∀ f ∈ s.infList, countLT s f = true) ∧
  (∀ f ∈ s.histList, countGE s f = true) ∧
  s.currSize = ((s.infList ++ s.histList).filter (evictableB s)).length

end LRUK

namespace LockMgr

theorem grantAllows_eq_specCompatible (m h : LockMode) :
    grantAllows m h = specCompatible m h := by
  cases m <;> cases h <;> rfl

theorem grantLock_eq_false_of_not_mem (req : LockRequest) (l : List LockRequest)
    (h : req.tid ∉ l.map LockRequest.tid) : grantLock req l = false := by
  induction l with
  | nil => rfl
  | cons a rest ih =>
    simp only [List.map_cons, List.mem_cons, not_or] at h
    simp only [grantLock]
    by_cases hg : a.granted = true
    · by_cases hc : grantAllows req.mode a.mode = true
      · simp [hg, hc, ih h.2]
      · simp [hg, hc]
    · simp [hg, h.1]

theorem firstUngranted_mem {l : List LockRequest} {r : LockRequest}
    (h : firstUngranted l = some r) : r ∈ l := by
  induction l with
  | nil => simp [firstUngranted] at h
  | cons a rest ih =>
    simp only [firstUngranted] at h
    by_cases hg : a.granted = true
    · rw [if_pos hg] at h
      exact List.mem_cons_of_mem _ (ih h)
    · rw [if_neg hg] at h
      rw [Option.some_inj] at h
      exact h ▸ List.mem_cons_self a rest

/-- C3: for a queue satisfying the spec's queue invariant (granted requests
precede ungranted ones, section 3.3), with one request per transaction, and
a candidate request that is a member of the queue, `GrantLock` returns true
exactly when the candidate's mode is compatible — per the matrix of section
4.6.1 — with every granted request of the queue and the candidate is the
first ungranted entry. -/
theorem c3_grantLock_iff (req : LockRequest) (q : List LockRequest)
    (hmem : req ∈ q) (hnd : (q.map LockRequest.tid).Nodup)
    (hord : q.Pairwise fun a b => b.granted = true → a.granted = true) :
    grantLock req q = true ↔
      ((∀ lr ∈ q, lr.granted = true → specCompatible req.mode lr.mode = true) ∧
        firstUngranted q = some req) := by
  induction q with
  | nil => simp at hmem
  | cons a rest ih =>
    simp only [List.map_cons, List.nodup_cons] at hnd
    rw [List.pairwise_cons] at hord
    rcases hnd with ⟨hna, hndr⟩
    by_cases hg : a.granted = true
    · by_cases hc : grantAllows req.mode a.mode = true
      · have ha' : specCompatible req.mode a.mode = true := by
          rw [← grantAllows_eq_specCompatible]; exact hc
        simp only [grantLock, hg, hc, if_true, firstUngranted, if_pos hg]
        rcases List.mem_cons.mp hmem with rfl | hr
        · -- the candidate is the granted head: both sides are false
          have hfalse : grantLock req rest = false :=
            grantLock_eq_false_of_not_mem req rest hna
          rw [hfalse]
          simp only [Bool.false_eq_true, false_iff, not_and]
          intro _ hfu
          exact hna (List.mem_map_of_mem LockRequest.tid (firstUngranted_mem hfu))
        · rw [ih hr hndr hord.2]
          constructor
          · rintro ⟨h1, h2⟩
            refine ⟨?_, h2⟩
            intro lr hlr hgr
            rcases List.mem_cons.mp hlr with rfl | hmm
            · exact ha'
            · exact h1 lr hmm hgr
          · rintro ⟨h1, h2⟩
            exact ⟨fun lr hlr hgr => h1 lr (List.mem_cons_of_mem _ hlr) hgr, h2⟩
      · refine iff_of_false (by simp [grantLock, hg, hc]) ?_
        rintro ⟨h1, _⟩
        have := h1 a (List.mem_cons_self a rest) hg
        rw [← grantAllows_eq_specCompatible] at this
        exact hc this
    · by_cases ht : req.tid = a.tid
      · have hra : req = a := by
          rcases List.mem_cons.mp hmem with h | h
          · exact h
          · exact absurd (ht ▸ List.mem_map_of_mem LockRequest.tid h) hna
        subst hra
        simp only [grantLock, hg, ht, if_true, if_false, firstUngranted, if_neg hg]
        constructor
        · intro _
          refine ⟨?_, rfl⟩
          intro lr hlr hgr
          rcases List.mem_cons.mp hlr with rfl | hmm
          · exact absurd hgr hg
          · exact absurd (hord.1 lr hmm hgr) hg
        · intro _; rfl
      · refine iff_of_false (by simp [grantLock, hg, ht]) ?_
        rintro ⟨_, hfu⟩
        rw [firstUngranted, if_neg hg, Option.some_inj] at hfu
        exact ht (hfu ▸ rfl)

/-- Witness for C3 at a concrete queue: one granted shared request of
transaction 1, the candidate shared request of transaction 2 first among the
ungranted. -/
theorem c3_grantLock_iff_witness :
    grantLock ⟨2, .shared, false⟩
      [⟨1, .shared, true⟩, ⟨2, .shared, false⟩, ⟨3, .exclusive, false⟩] = true :=
  (c3_grantLock_iff ⟨2, .shared, false⟩
      [⟨1, .shared, true⟩, ⟨2, .shared, false⟩, ⟨3, .exclusive, false⟩]
      (by decide) (by decide) (by decide)).mpr (by decide)

end LockMgr

namespace LockMgr

/-- Counterexample to C4: a growing REPEATABLE_READ transaction holding no
table lock at all requests an S row lock — the claim demands an abort with
TABLE_LOCK_NOT_PRESENT, but `LockRow` performs no table-lock check for
shared row locks and proceeds to the queue; and for an X row lock of a
SHRINKING transaction the earlier isolation check fires first, so the abort
reason is LOCK_ON_SHRINKING, not TABLE_LOCK_NOT_PRESENT. -/
theorem c4_counterexample :
    lockRowCheck ⟨1, .repeatableRead, .growing, [], [], [], [], []⟩ .shared 7 = none ∧
    lockRowCheck ⟨1, .repeatableRead, .growing, [], [], [], [], []⟩ .shared 7 ≠
      some .tableLockNotPresent ∧
    lockRowCheck ⟨2, .repeatableRead, .shrinking, [], [], [], [], []⟩ .exclusive 7 =
      some .lockOnShrinking ∧
    lockRowCheck ⟨2, .repeatableRead, .shrinking, [], [], [], [], []⟩ .exclusive 7 ≠
      some .tableLockNotPresent := by
  decide

/-- C4 as amended: an X row lock request of a non-SHRINKING transaction
(so the isolation-level checks pass) aborts with TABLE_LOCK_NOT_PRESENT
exactly when the transaction holds none of X, IX, SIX on the table; an S row
lock request never aborts with TABLE_LOCK_NOT_PRESENT because `LockRow` has
no table-lock check for shared row locks. -/
theorem c4_rowTableLock_amended (txn : Txn) (oid : Nat) :
    (txn.state ≠ .shrinking →
      oid ∉ txn.exclusiveTable → oid ∉ txn.intentionExclusiveTable →
      oid ∉ txn.sharedIntentionExclusiveTable →
      lockRowCheck txn .exclusive oid = some .tableLockNotPresent) ∧
    lockRowCheck txn .shared oid ≠ some .tableLockNotPresent := by
  constructor
  · intro hst h1 h2 h3
    rcases txn with ⟨tid, iso, stt, s1, s2, s3, s4, s5⟩
    simp only at hst h1 h2 h3 ⊢
    cases iso <;> cases stt <;> simp_all [lockRowCheck]
  · rcases txn with ⟨tid, iso, stt, s1, s2, s3, s4, s5⟩
    cases iso <;> cases stt <;> simp [lockRowCheck]

/-- Witness for the amended C4 at a concrete transaction with empty lock
sets. -/
theorem c4_rowTableLock_amended_witness :
    lockRowCheck ⟨1, .readCommitted, .growing, [], [], [], [], []⟩ .exclusive 5 =
      some .tableLockNotPresent ∧
    lockRowCheck ⟨1, .readCommitted, .growing, [], [], [], [], []⟩ .shared 5 ≠
      some .tableLockNotPresent :=
  ⟨(c4_rowTableLock_amended ⟨1, .readCommitted, .growing, [], [], [], [], []⟩ 5).1
      (by decide) (by decide) (by decide) (by decide),
    (c4_rowTableLock_amended ⟨1, .readCommitted, .growing, [], [], [], [], []⟩ 5).2⟩

theorem find?_eq_some_of_nodup_tid (l : List LockRequest) (r : LockRequest) (t : Nat)
    (hnd : (l.map LockRequest.tid).Nodup) (hmem : r ∈ l) (ht : r.tid = t) :
    l.find? (fun lr => lr.tid == t) = some r := by
  induction l with
  | nil => simp at hmem
  | cons a rest ih =>
    simp only [List.map_cons, List.nodup_cons] at hnd
    rcases List.mem_cons.mp hmem with rfl | hr
    · have hpe : (r.tid == t) = true := by simp [ht]
      simp only [List.find?, hpe]
    · have hne : (a.tid == t) = false := by
        simp only [beq_eq_false_iff_ne, ne_eq]
        intro hat
        exact hnd.1 (by rw [hat, ← ht]; exact List.mem_map_of_mem LockRequest.tid hr)
      simp only [List.find?, hne]
      exact ih hnd.2 hr

/-- C9: when the isolation checks pass and the transaction already has a
request of the same mode in the table's queue, `LockTable` returns true
immediately: the queue, the upgrading marker and the transaction (its lock
sets included) are returned unchanged. -/
theorem c9_lockTable_rerequest_idempotent (txn : Txn) (mode : LockMode) (oid : Nat)
    (q : LockRequestQueue) (r : LockRequest)
    (hiso : tableIsoCheck txn mode = none)
    (hnd : (q.queue.map LockRequest.tid).Nodup)
    (hmem : r ∈ q.queue) (htid : r.tid = txn.tid) (hmode : r.mode = mode) :
    lockTableStep txn mode oid q = (.ret true, txn, q) := by
  have hfind : q.queue.find? (fun lr => lr.tid == txn.tid) = some r :=
    find?_eq_some_of_nodup_tid q.queue r txn.tid hnd hmem htid
  simp only [lockTableStep, hiso, hfind, hmode, if_true]

/-- Witness for C9: transaction 2 re-requests the shared table lock it
already holds. -/
theorem c9_lockTable_rerequest_witness :
    lockTableStep ⟨2, .repeatableRead, .growing, [7], [], [], [], []⟩ .shared 7
      ⟨[⟨1, .shared, true⟩, ⟨2, .shared, true⟩], none⟩ =
      (.ret true, ⟨2, .repeatableRead, .growing, [7], [], [], [], []⟩,
        ⟨[⟨1, .shared, true⟩, ⟨2, .shared, true⟩], none⟩) :=
  c9_lockTable_rerequest_idempotent _ .shared 7 _ ⟨2, .shared, true⟩
    (by decide) (by decide) (by decide) (by decide) (by decide)

end LockMgr

namespace LRUK

/-- Counterexample to C8, at K = 1: record two accesses of frame 1 and then
one access of frame 2 on a fresh replacer (all frames evictable).  Frame 1
(count 2) and frame 2 (count 1) both have at least K = 1 recorded accesses,
so the under-K class of the claim is empty and the claim requires the
least-recently-accessed frame — frame 1, whose accesses both precede frame
2's only access.  The code instead keeps frame 2 in the under-K FIFO list
(a first access always lands there, even when it already reaches K) and
evicts frame 2. -/
theorem c8_counterexample :
    (replay (newReplacer 3 1) [.acc 1, .acc 1, .acc 2]).map
        (fun s => ((evict s).map Prod.fst, lookupCount s.countMap 1,
          lookupCount s.countMap 2, s.nonEvict)) =
      some (some 2, some 2, some 1, []) := by
  decide

theorem find?_eq_some_of_minimal (l : List Nat) (p : Nat → Bool) (meas : Nat → Nat)
    (hpair : l.Pairwise fun a b => meas a < meas b)
    (f : Nat) (hmem : f ∈ l) (hp : p f = true)
    (hmin : ∀ g ∈ l, p g = true → meas f ≤ meas g) :
    l.find? p = some f := by
  induction l with
  | nil => simp at hmem
  | cons a rest ih =>
    rw [List.pairwise_cons] at hpair
    by_cases hpa : p a = true
    · have haf : a = f := by
        rcases List.mem_cons.mp hmem with rfl | hr
        · rfl
        · have h1 := hpair.1 f hr
          have h2 := hmin a (List.mem_cons_self a rest) hpa
          omega
      subst haf
      simp only [List.find?, hpa]
    · have hf : f ∈ rest := by
        rcases List.mem_cons.mp hmem with rfl | hr
        · exact absurd hp hpa
        · exact hr
      have hne : p a = false := by rwa [Bool.not_eq_true] at hpa
      simp only [List.find?, hne]
      exact ih hpair.2 hf fun g hg hpg => hmin g (List.mem_cons_of_mem _ hg) hpg

theorem currSize_ne_zero_of_evictable (s : RState) (hwf : WF s) (f : Nat)
    (hmem : f ∈ s.infList ++ s.histList) (hev : evictableB s f = true) :
    s.currSize ≠ 0 := by
  rcases hwf with ⟨-, -, -, -, -, hsize⟩
  rw [hsize]
  have : f ∈ (s.infList ++ s.histList).filter (evictableB s) :=
    List.mem_filter.mpr ⟨hmem, hev⟩
  intro hzero
  rw [List.length_eq_zero] at hzero
  rw [hzero] at this
  simp at this

/-- C8 as amended: the claim holds for replacer states that conform to the
data model of spec section 4.2 — the two class lists disjoint, the under-K
list holding exactly the frames with fewer than K recorded accesses in
first-access order, the at-least-K list in last-access order, and
`curr_size_` counting the evictable tracked frames.  (The counterexample
shows the code strays from that model when K ≤ 1: a first access parks a
frame in the under-K FIFO even though it already has K accesses.)  Then:
with no evictable tracked frame, `Evict` returns none; the oldest evictable
under-K frame is evicted when one exists; only otherwise is the evictable
at-least-K frame with the least recent access evicted; and the victim's
tracking (list entry and count-map entry) is deleted. -/
theorem c8_evict_amended (s : RState) (firstA lastA : Nat → Nat)
    (hwf : WF s)
    (hinf : s.infList.Pairwise fun a b => firstA a < firstA b)
    (hhist : s.histList.Pairwise fun a b => lastA a < lastA b) :
    (((s.infList ++ s.histList).filter (evictableB s)).length = 0 → evict s = none) ∧
    (∀ f, f ∈ s.infList → evictableB s f = true →
      (∀ g ∈ s.infList, evictableB s g = true → firstA f ≤ firstA g) →
      countLT s f = true ∧
      evict s = some (f, { s with countMap := eraseCount s.countMap f,
                                  infList := s.infList.erase f,
                                  currSize := s.currSize - 1 })) ∧
    ((∀ g ∈ s.infList, evictableB s g = false) →
      ∀ f, f ∈ s.histList → evictableB s f = true →
      (∀ g ∈ s.histList, evictableB s g = true → lastA f ≤ lastA g) →
      countGE s f = true ∧
      evict s = some (f, { s with countMap := eraseCount s.countMap f,
                                  histList := s.histList.erase f,
                                  currSize := s.currSize - 1 })) := by
  refine ⟨?_, ?_, ?_⟩
  · intro hlen
    have hz : s.currSize = 0 := by
      rcases hwf with ⟨-, -, -, -, -, hsize⟩
      rw [hsize, hlen]
    simp [evict, hz]
  · intro f hmem hev hmin
    have hcnt : countLT s f = true := hwf.2.2.2.1 f hmem
    refine ⟨hcnt, ?_⟩
    have hne := currSize_ne_zero_of_evictable s hwf f
      (List.mem_append.mpr (Or.inl hmem)) hev
    have hfind : s.infList.find? (fun g => !(s.nonEvict.contains g)) = some f := by
      exact find?_eq_some_of_minimal s.infList _ firstA hinf f hmem hev
        fun g hg hpg => hmin g hg hpg
    simp only [evict, if_neg hne, hfind]
  · intro hnone f hmem hev hmin
    have hcnt : countGE s f = true := hwf.2.2.2.2.1 f hmem
    refine ⟨hcnt, ?_⟩
    have hne := currSize_ne_zero_of_evictable s hwf f
      (List.mem_append.mpr (Or.inr hmem)) hev
    have hinfnone : s.infList.find? (fun g => !(s.nonEvict.contains g)) = none := by
      rw [List.find?_eq_none]
      intro g hg
      have h2 := hnone g hg
      simp only [evictableB, Bool.not_eq_false'] at h2
      simp only [Bool.not_eq_true]
      rw [h2]
      decide
    have hfind : s.histList.find? (fun g => !(s.nonEvict.contains g)) = some f := by
      exact find?_eq_some_of_minimal s.histList _ lastA hhist f hmem hev
        fun g hg hpg => hmin g hg hpg
    simp only [evict, if_neg hne, hinfnone, hfind]

/-- Witness for the amended C8: frames 1 and 2 are under-K (one access
each), frame 3 at-least-K; frame 1 is pinned, so frame 2 — the oldest
evictable under-K frame — is the victim and all its tracking is deleted. -/
theorem c8_evict_amended_witness :
    evict ⟨2, 3, [1, 2], [3], [(1, 1), (2, 1), (3, 2)], [1], 2⟩ =
      some (2, ⟨2, 3, [1], [3], [(1, 1), (3, 2)], [1], 1⟩) :=
  ((c8_evict_amended ⟨2, 3, [1, 2], [3], [(1, 1), (2, 1), (3, 2)], [1], 2⟩ id id
      (by unfold WF; decide) (by decide) (by decide)).2.1 2 (by decide) (by decide)
      (by decide)).2

end LRUK

namespace LRUK

theorem setEvictable_true_spec (s : RState) (f : Nat)
    (hassert : ¬(lookupCount s.countMap f = none ∧ f = 0))
    (hnd : s.nonEvict.Nodup) :
    ∃ r, setEvictable s f true = some r ∧ f ∉ r.nonEvict ∧
      r.infList = s.infList ∧ r.histList = s.histList ∧ r.countMap = s.countMap := by
  unfold setEvictable
  rw [if_neg hassert]
  by_cases hc : s.nonEvict.contains f = true
  · have hmem : f ∈ s.nonEvict := List.mem_of_elem_eq_true hc
    refine ⟨{ s with nonEvict := s.nonEvict.erase f, currSize := s.currSize + 1 },
      ?_, ?_, rfl, rfl, rfl⟩
    · rw [if_neg (by simp), if_pos (by simp [hmem])]
    · intro hmm
      rcases (List.Nodup.mem_erase_iff hnd).mp hmm with ⟨hne, -⟩
      exact hne rfl
  · have hmem : f ∉ s.nonEvict := fun hm => hc (List.elem_eq_true_of_mem hm)
    refine ⟨s, ?_, hmem, rfl, rfl, rfl⟩
    rw [if_neg (by simp), if_neg (by simp [hmem])]

end LRUK

namespace BPM

/-- C7: `UnpinPgImp` returns false and changes nothing when the page is not
cached or the frame's pin count is not positive; otherwise it returns true
after decrementing the pin count by exactly one, OR-ing the dirty flag in,
and — exactly when the new pin count is zero — marking the frame evictable
in the replacer; the directory, the free list and every other frame are
untouched (the single `frames.set` at the hit frame).  The third part
assumes the `SetEvictable` assert passes (the frame is tracked or non-zero)
and that the non-evictable set holds no duplicates. -/
theorem c7_unpin_spec (st : PState) (pid : Int) (flag : Bool) :
    (tableFind st.pageTable pid = none → unpinPg st pid flag = some (false, st)) ∧
    (∀ fid, tableFind st.pageTable pid = some fid →
      (st.frames.getD fid ⟨-1, 0, false⟩).pinCount ≤ 0 →
      unpinPg st pid flag = some (false, st)) ∧
    (∀ fid, tableFind st.pageTable pid = some fid →
      0 < (st.frames.getD fid ⟨-1, 0, false⟩).pinCount →
      ¬(LRUK.lookupCount st.replacer.countMap fid = none ∧ fid = 0) →
      st.replacer.nonEvict.Nodup →
      ((st.frames.getD fid ⟨-1, 0, false⟩).pinCount = 1 →
        ∃ r, LRUK.setEvictable st.replacer fid true = some r ∧ fid ∉ r.nonEvict ∧
          unpinPg st pid flag = some (true,
            { st with
                frames := st.frames.set fid
                  { st.frames.getD fid ⟨-1, 0, false⟩ with
                      pinCount := (st.frames.getD fid ⟨-1, 0, false⟩).pinCount - 1,
                      isDirty := (st.frames.getD fid ⟨-1, 0, false⟩).isDirty || flag },
                replacer := r })) ∧
      ((st.frames.getD fid ⟨-1, 0, false⟩).pinCount ≠ 1 →
        unpinPg st pid flag = some (true,
          { st with
              frames := st.frames.set fid
                { st.frames.getD fid ⟨-1, 0, false⟩ with
                    pinCount := (st.frames.getD fid ⟨-1, 0, false⟩).pinCount - 1,
                    isDirty := (st.frames.getD fid ⟨-1, 0, false⟩).isDirty || flag } }))) := by
  refine ⟨?_, ?_, ?_⟩
  · intro hfind
    simp only [unpinPg, hfind]
  · intro fid hfind hpin
    simp only [unpinPg, hfind]
    rw [if_pos hpin]
  · intro fid hfind hpin hassert hnd
    constructor
    · intro hone
      rcases LRUK.setEvictable_true_spec st.replacer fid hassert hnd with
        ⟨r, hset, hnm, -, -, -⟩
      refine ⟨r, hset, hnm, ?_⟩
      simp only [unpinPg, hfind]
      rw [if_neg (by omega)]
      rw [if_pos (by omega), hset]
    · intro hne
      simp only [unpinPg, hfind]
      rw [if_neg (by omega)]
      rw [if_neg (by omega)]

/-- Witness for C7 at a concrete pool: page 7 cached in frame 0 with pin
count 1; unpinning with the dirty flag decrements to zero, sets the dirty
bit and makes frame 0 evictable. -/
theorem c7_unpin_spec_witness :
    unpinPg ⟨[(7, 0)], [⟨7, 1, false⟩], [], ⟨2, 3, [0], [], [(0, 1)], [0], 0⟩⟩ 7 true =
      some (true, ⟨[(7, 0)], [⟨7, 0, true⟩], [], ⟨2, 3, [0], [], [(0, 1)], [], 1⟩⟩) := by
  have h := (c7_unpin_spec
    ⟨[(7, 0)], [⟨7, 1, false⟩], [], ⟨2, 3, [0], [], [(0, 1)], [0], 0⟩⟩ 7 true).2.2 0
    (by decide) (by decide) (by decide) (by decide)
  rcases h.1 (by decide) with ⟨r, hset, -, hu⟩
  have hev : LRUK.setEvictable (⟨2, 3, [0], [], [(0, 1)], [0], 0⟩ : LRUK.RState) 0 true =
      some ⟨2, 3, [0], [], [(0, 1)], [], 1⟩ := by decide
  rw [hev] at hset
  have hrr : r = ⟨2, 3, [0], [], [(0, 1)], [], 1⟩ := by injection hset.symm
  subst hrr
  exact hu

end BPM

namespace EHT

theorem find?_key_map_set (l : List (Nat × Bucket)) (bid x : Nat) (b : Bucket) :
    ((l.map fun p => if p.1 = bid then (bid, b) else p).find?
        (fun p => p.1 == x)).isSome =
      (l.find? (fun p => p.1 == x)).isSome := by
  induction l with
  | nil => rfl
  | cons a rest ih =>
    rcases a with ⟨a1, ab⟩
    simp only [List.map_cons, List.find?]
    by_cases ha : a1 = bid
    · rw [if_pos ha]
      by_cases hx : a1 = x
      · have h1 : ((bid : Nat) == x) = true := beq_iff_eq.mpr (ha ▸ hx)
        have h2 : (a1 == x) = true := beq_iff_eq.mpr hx
        rw [h1, h2]
        rfl
      · have h1 : ((bid : Nat) == x) = false :=
          beq_eq_false_iff_ne.mpr fun hh => hx (ha.trans hh)
        have h2 : (a1 == x) = false := beq_eq_false_iff_ne.mpr hx
        rw [h1, h2]
        exact ih
    · rw [if_neg ha]
      by_cases hx : a1 = x
      · have h2 : (a1 == x) = true := beq_iff_eq.mpr hx
        rw [h2]
      · have h2 : (a1 == x) = false := beq_eq_false_iff_ne.mpr hx
        rw [h2]
        exact ih

theorem getBucket_setBucket_self (t : HState) (bid : Nat) (b : Bucket)
    (h : (t.buckets.find? (fun p => p.1 == bid)).isSome = true) :
    getBucket (setBucket t bid b) bid = b := by
  unfold getBucket setBucket
  simp only
  have : ∀ l : List (Nat × Bucket), (l.find? (fun p => p.1 == bid)).isSome = true →
      (((l.map fun p => if p.1 = bid then (bid, b) else p).find?
          (fun p => p.1 == bid)).map Prod.snd).getD ⟨[], 0⟩ = b := by
    intro l
    induction l with
    | nil => intro h; simp [List.find?] at h
    | cons a rest ih =>
      intro hl
      rcases a with ⟨a1, ab⟩
      by_cases ha : a1 = bid
      · subst ha
        simp [List.find?]
      · have hbx : (a1 == bid) = false := by simp [ha]
        simp only [List.find?, hbx] at hl
        simp only [List.map_cons, List.find?, if_neg ha, hbx]
        exact ih hl
  exact this t.buckets h

theorem find?_isSome_append_left {α : Type} (l1 l2 : List α) (p : α → Bool)
    (h : (l1.find? p).isSome = true) : ((l1 ++ l2).find? p).isSome = true := by
  induction l1 with
  | nil => simp [List.find?] at h
  | cons a rest ih =>
    cases hp : p a
    · simp only [List.find?, hp] at h
      simp only [List.cons_append, List.find?, hp]
      exact ih h
    · simp [List.find?, hp]

theorem setBucket_dir (t : HState) (bid : Nat) (b : Bucket) :
    (setBucket t bid b).dir = t.dir := rfl

theorem setBucket_globalDepth (t : HState) (bid : Nat) (b : Bucket) :
    (setBucket t bid b).globalDepth = t.globalDepth := rfl

theorem WFdir_setBucket (t : HState) (bid : Nat) (b : Bucket)
    (hwf : WFdir t) : WFdir (setBucket t bid b) := by
  rcases hwf with ⟨hlen, hmem⟩
  refine ⟨hlen, ?_⟩
  intro x hx
  rw [show (setBucket t bid b).buckets = t.buckets.map
    (fun p => if p.1 = bid then (bid, b) else p) from rfl]
  rw [find?_key_map_set]
  exact hmem x hx

theorem WFdir_redistLoop (hash : Nat → Nat) (bi overflow : Nat)
    (items : List (Nat × Nat)) (t : HState) (hwf : WFdir t) :
    WFdir (redistLoop hash bi overflow items t).2 := by
  induction items generalizing t with
  | nil => exact hwf
  | cons item rest ih =>
    simp only [redistLoop]
    split
    · exact ih _ (WFdir_setBucket _ _ _ hwf)
    · exact ih t hwf

theorem WFdir_aliasFold (l : List Nat) (t : HState) (nb rawIndex bucketDepth : Nat)
    (hwf : WFdir t) (hnb : (t.buckets.find? (fun p => p.1 == nb)).isSome = true) :
    WFdir (l.foldl
      (fun acc i =>
        if i = 0 then acc
        else { acc with dir := acc.dir.set (rawIndex ||| (i <<< bucketDepth)) nb }) t) := by
  induction l generalizing t with
  | nil => exact hwf
  | cons i rest ih =>
    simp only [List.foldl_cons]
    split
    · exact ih t hwf hnb
    · refine ih _ ⟨?_, ?_⟩ hnb
      · rw [List.length_set]
        exact hwf.1
      · intro x hx
        rcases List.mem_or_eq_of_mem_set hx with h | rfl
        · exact hwf.2 x h
        · exact hnb

theorem WFdir_splitStep (hash : Nat → Nat) (t : HState) (bi bid : Nat)
    (hwf : WFdir t) : WFdir (splitStep hash t bi bid) := by
  have h1 : WFdir (if (getBucket t bid).depth = t.globalDepth then
      { t with dir := t.dir ++ t.dir, globalDepth := t.globalDepth + 1 } else t) := by
    split
    · refine ⟨?_, ?_⟩
      · simp only [List.length_append, hwf.1, pow_succ]
        omega
      · intro x hx
        rcases List.mem_append.mp hx with h | h <;> exact hwf.2 x h
    · exact hwf
  have hself : ∀ l : List (Nat × Bucket), ∀ y : Nat, ∀ bk : Bucket,
      ((l ++ [(y, bk)]).find? (fun p => p.1 == y)).isSome = true := by
    intro l y bk
    induction l with
    | nil => simp [List.find?]
    | cons a rest ih =>
      cases hp : (a.1 == y)
      · simp only [List.cons_append, List.find?, hp]
        exact ih
      · simp [List.find?, hp]
  simp only [splitStep]
  apply WFdir_setBucket
  apply WFdir_redistLoop
  apply WFdir_aliasFold
  · -- well-formedness after allocating the sibling bucket
    refine ⟨?_, ?_⟩
    · rw [List.length_set]
      exact h1.1
    · intro x hx
      rcases List.mem_or_eq_of_mem_set hx with h | rfl
      · exact find?_isSome_append_left _ _ _ ((WFdir_setBucket _ _ _ h1).2 x h)
      · exact hself _ _ _
  · exact hself _ _ _

theorem keyFind_overwriteFirst (l : List (Nat × Nat)) (k v : Nat)
    (h : (l.find? (fun p => p.1 == k)).isSome = true) :
    (overwriteFirst l k v).find? (fun p => p.1 == k) = some (k, v) := by
  induction l with
  | nil => simp [List.find?] at h
  | cons a rest ih =>
    rcases a with ⟨a1, av⟩
    by_cases ha : a1 = k
    · subst ha
      simp [overwriteFirst, List.find?]
    · have hbx : (a1 == k) = false := by simp [ha]
      simp only [List.find?, hbx] at h
      simp only [overwriteFirst, if_neg ha, List.find?, hbx]
      exact ih h

theorem keyFind_append_self (l : List (Nat × Nat)) (k v : Nat)
    (h : (l.find? (fun p => p.1 == k)).isSome = false) :
    (l ++ [(k, v)]).find? (fun p => p.1 == k) = some (k, v) := by
  induction l with
  | nil => simp [List.find?]
  | cons a rest ih =>
    cases hp : (a.1 == k)
    · simp only [List.find?, hp] at h
      simp only [List.cons_append, List.find?, hp]
      exact ih h
    · simp only [List.find?, hp] at h
      simp at h

theorem bucketInsert_found (bsize : Nat) (b : Bucket) (k v : Nat)
    (h : (bucketInsert bsize b k v).1 = true) :
    bucketFind (bucketInsert bsize b k v).2 k = some v := by
  unfold bucketInsert at h ⊢
  by_cases hc : (b.items.find? (fun p => p.1 == k)).isSome = true
  · rw [if_pos hc] at h ⊢
    unfold bucketFind
    simp only
    rw [keyFind_overwriteFirst b.items k v hc]
    rfl
  · rw [if_neg hc] at h ⊢
    by_cases hf : bsize ≤ b.items.length
    · rw [if_pos hf] at h
      simp at h
    · rw [if_neg hf] at h ⊢
      unfold bucketFind
      simp only
      rw [keyFind_append_self b.items k v (Bool.eq_false_iff.mpr hc)]
      rfl

/-- C10: a successful `Insert` makes `Find` return the inserted value (for
any directory-consistent table and any hash function); and when the key is
already present, `Insert` overwrites the stored value of the first matching
pair in place, returning the same table with only that bucket's item list
changed — no split, no directory growth, no new bucket — even if the bucket
is full. -/
theorem c10_insert_find_overwrite (hash : Nat → Nat) :
    (∀ fuel t k v t', WFdir t →
      insertTable hash fuel t k v = some t' → find hash t' k = some v) ∧
    (∀ fuel t k v v0, find hash t k = some v0 →
      insertTable hash (fuel + 1) t k v =
        some (setBucket t (t.dir.getD (indexOf hash t.globalDepth k) 0)
          ⟨overwriteFirst
              (getBucket t (t.dir.getD (indexOf hash t.globalDepth k) 0)).items k v,
            (getBucket t (t.dir.getD (indexOf hash t.globalDepth k) 0)).depth⟩)) := by
  constructor
  · intro fuel
    induction fuel with
    | zero =>
      intro t k v t' _ h
      simp [insertTable, insertInternal] at h
    | succ n ih =>
      intro t k v t' hwf h
      simp only [insertTable, insertInternal] at h
      by_cases hr : (bucketInsert t.bucketSize
          (getBucket t (t.dir.getD (indexOf hash t.globalDepth k) 0)) k v).1 = true
      · rw [if_pos hr] at h
        rw [Option.some_inj] at h
        subst h
        unfold find
        rw [setBucket_dir, setBucket_globalDepth]
        have hbidmem : t.dir.getD (indexOf hash t.globalDepth k) 0 ∈ t.dir := by
          have hlt : indexOf hash t.globalDepth k < t.dir.length := by
            rw [hwf.1]
            exact Nat.mod_lt _ (pow_pos (by omega) _)
          rw [List.getD_eq_getElem t.dir 0 hlt]
          exact List.getElem_mem hlt
        rw [getBucket_setBucket_self t _ _ (hwf.2 _ hbidmem)]
        exact bucketInsert_found _ _ k v hr
      · rw [if_neg hr] at h
        exact ih (splitStep hash t (indexOf hash t.globalDepth k)
            (t.dir.getD (indexOf hash t.globalDepth k) 0)) k v t'
          (WFdir_splitStep hash t _ _ hwf) h
  · intro fuel t k v v0 hfind
    have hsome : ((getBucket t (t.dir.getD (indexOf hash t.globalDepth k) 0)).items.find?
        (fun p => p.1 == k)).isSome = true := by
      unfold find bucketFind at hfind
      cases hq : (getBucket t (t.dir.getD (indexOf hash t.globalDepth k) 0)).items.find?
          (fun p => p.1 == k)
      · rw [hq] at hfind
        simp at hfind
      · simp [hq]
    simp only [insertTable, insertInternal]
    have hins : bucketInsert t.bucketSize
        (getBucket t (t.dir.getD (indexOf hash t.globalDepth k) 0)) k v =
        (true, ⟨overwriteFirst
            (getBucket t (t.dir.getD (indexOf hash t.globalDepth k) 0)).items k v,
          (getBucket t (t.dir.getD (indexOf hash t.globalDepth k) 0)).depth⟩) := by
      unfold bucketInsert
      rw [if_pos hsome]
    rw [hins]
    simp

/-- Witness for C10: inserting key 5 ↦ 9 into a fresh table (bucket size 2,
identity hash) makes find return 9, and re-inserting 5 ↦ 7 overwrites in
place without any structural change. -/
theorem c10_insert_find_overwrite_witness :
    find id (⟨0, 2, 1, [0], [(0, ⟨[(5, 9)], 0⟩)], 1⟩ : HState) 5 = some 9 ∧
    insertTable id 1 (⟨0, 2, 1, [0], [(0, ⟨[(5, 9)], 0⟩)], 1⟩ : HState) 5 7 =
      some ⟨0, 2, 1, [0], [(0, ⟨[(5, 7)], 0⟩)], 1⟩ :=
  ⟨(c10_insert_find_overwrite id).1 3 (newTable 2) 5 9 _ (by unfold WFdir; decide) (by decide),
   (c10_insert_find_overwrite id).2 0
     (⟨0, 2, 1, [0], [(0, ⟨[(5, 9)], 0⟩)], 1⟩ : HState) 5 7 9 (by decide)⟩

end EHT

namespace BPT

theorem bsearch_found (keys : List Int) (key : Int) :
    ∀ (fuel : Nat) (i j m : Int), bsearch keys key fuel i j = (true, m) →
      i ≤ m ∧ m ≤ j ∧ keys.getD m.toNat 0 = key := by
  intro fuel
  induction fuel with
  | zero =>
    intro i j m h
    simp [bsearch] at h
  | succ n ih =>
    intro i j m h
    simp only [bsearch] at h
    by_cases hij : i ≤ j
    · rw [if_pos hij] at h
      by_cases h1 : keys.getD ((j - i) / 2 + i).toNat 0 < key
      · rw [if_pos h1] at h
        obtain ⟨ha, hb, hc⟩ := ih _ _ _ h
        refine ⟨by omega, hb, hc⟩
      · rw [if_neg h1] at h
        by_cases h2 : key < keys.getD ((j - i) / 2 + i).toNat 0
        · rw [if_pos h2] at h
          obtain ⟨ha, hb, hc⟩ := ih _ _ _ h
          refine ⟨ha, by omega, hc⟩
        · rw [if_neg h2] at h
          have hm : m = (j - i) / 2 + i := by
            have h2' := congrArg Prod.snd h
            simp at h2'
            omega
          subst hm
          refine ⟨by omega, by omega, by omega⟩
    · rw [if_neg hij] at h
      simp at h

theorem getD_map_fst {β : Type} (l : List (Int × β)) (n : Nat) (dp : Int × β)
    (hn : n < l.length) : (l.map Prod.fst).getD n 0 = (l.getD n dp).1 := by
  rw [List.getD_eq_getElem (l.map Prod.fst) 0 (by simpa using hn),
    List.getD_eq_getElem l dp hn]
  simp

theorem getKeyIndexL_found (entries : List (Int × Nat)) (key : Int) (m : Int)
    (h : getKeyIndexL entries key = (true, m)) :
    0 ≤ m ∧ m.toNat < entries.length ∧ (entries.getD m.toNat (0, 0)).1 = key := by
  obtain ⟨h1, h2, h3⟩ := bsearch_found _ key _ _ _ _ h
  have hlen : m.toNat < entries.length := by omega
  refine ⟨h1, hlen, ?_⟩
  rw [← getD_map_fst entries m.toNat (0, 0) hlen]
  exact h3

/-- C2: inserting a key the tree already stores (`GetValue` succeeds on it)
returns false and leaves the tree — every page, the root id, the allocator —
unchanged: the descent is read-only and the leaf-level insert bails out on
the duplicate before shifting anything. -/
theorem c2_duplicate_insert_noop (fuel : Nat) (st : TreeState) (k : Int) (v0 v : Nat)
    (h : getValue fuel st k = some v0) :
    insert fuel st k v = some (false, st) := by
  unfold getValue at h
  by_cases hroot : st.rootId = -1
  · simp [hroot] at h
  · rw [if_neg hroot] at h
    unfold insert
    rw [if_neg hroot]
    cases hleaf : getLeafPage fuel st (.byKey k) with
    | none =>
      simp only [hleaf] at h
      exact Option.noConfusion h
    | some lid =>
      simp only [hleaf] at h ⊢
      cases hfetch : fetch st lid with
      | none =>
        simp only [hfetch] at h
        exact Option.noConfusion h
      | some node =>
        simp only [hfetch] at h ⊢
        cases node with
        | internal e p => simp at h
        | leaf entries next parent =>
          simp only at h
          have hfound : (getKeyIndexL entries k).1 = true := by
            unfold leafGetValue at h
            by_cases hf : (getKeyIndexL entries k).1 = true
            · exact hf
            · rw [if_neg hf] at h; cases h
          simp [leafInsert, hfound]

/-- Witness for C2: re-inserting key 10 into a one-leaf tree that stores it
fails and returns the identical tree. -/
theorem c2_duplicate_insert_noop_witness :
    insert 2 (⟨[(1, .leaf [(10, 10)] (-1) (-1))], 1, 2, 4, 4⟩ : TreeState) 10 99 =
      some (false, ⟨[(1, .leaf [(10, 10)] (-1) (-1))], 1, 2, 4, 4⟩) :=
  c2_duplicate_insert_noop 2 ⟨[(1, .leaf [(10, 10)] (-1) (-1))], 1, 2, 4, 4⟩ 10 10 99
    (by decide)

/-- Counterexample to C5: with `leaf_max = 5` a root leaf of size 3 is safe
for the code (`5 / 2 + 1 = 3 ≤ 3`, truncating division) but not for the
claim (`⌈5/2⌉ + 1 = 4 > 3`); with `internal_max = 4` a root internal node of
size 3 is safe for the code (`(4+1)/2 + 1 = 3`) but not for the claim
(`⌈(4+1)/2⌉ + 1 = 4`). -/
theorem c5_counterexample :
    isSafe 5 4 ⟨true, true, 3, 5, 2⟩ .delete = true ∧
    claimSafe 5 4 ⟨true, true, 3, 5, 2⟩ .delete = false ∧
    isSafe 5 4 ⟨false, true, 3, 4, 2⟩ .delete = true ∧
    claimSafe 5 4 ⟨false, true, 3, 4, 2⟩ .delete = false := by
  decide

/-- C5 as amended: the safety predicate holds per mode as the claim lists
it, except that the root-leaf delete threshold is `⌊leaf_max/2⌋ + 1`
(truncating division, as in the source) and the root-internal one is
`(internal_max + 1)/2 + 1 = ⌈internal_max/2⌉ + 1`. -/
theorem c5_isSafe_amended (lm im : Int) (n : NodeDesc) (mode : ModeType) :
    isSafe lm im n mode = true ↔
      ((mode = .insert ∧ n.isLeaf = true ∧ n.size < n.maxSize - 1) ∨
       (mode = .insert ∧ n.isLeaf = false ∧ n.size ≤ n.maxSize - 1) ∨
       (mode = .delete ∧ n.isRoot = false ∧ n.minSize + 1 ≤ n.size) ∨
       (mode = .delete ∧ n.isRoot = true ∧ n.isLeaf = true ∧ lm / 2 + 1 ≤ n.size) ∨
       (mode = .delete ∧ n.isRoot = true ∧ n.isLeaf = false ∧
         (im + 1) / 2 + 1 ≤ n.size) ∨
       mode = .search ∨ mode = .searchLeftmost ∨ mode = .searchRightmost) := by
  cases mode <;> cases hl : n.isLeaf <;> cases hr : n.isRoot <;>
    simp [isSafe, hl, hr]

/-- Counterexample to C6: the non-empty single-leaf tree storing key 10 and
the probe key 5 — a stored key (10) is ≥ 5, yet `Begin(5)` returns the
default invalid iterator, because `GetKeyIndex` only reports exact hits and
the not-found branch of `Begin(key)` (b_plus_tree.cpp:177) discards the
lower-bound slot. -/
theorem c6_counterexample :
    beginAt 2 (⟨[(1, .leaf [(10, 10)] (-1) (-1))], 1, 2, 4, 4⟩ : TreeState) 5 = none ∧
    getValue 2 (⟨[(1, .leaf [(10, 10)] (-1) (-1))], 1, 2, 4, 4⟩ : TreeState) 10 = some 10 ∧
    (⟨[(1, .leaf [(10, 10)] (-1) (-1))], 1, 2, 4, 4⟩ : TreeState).rootId ≠ -1 ∧
    (5 : Int) ≤ 10 := by
  decide

/-- C6 as amended: `Begin(key)` yields a valid iterator exactly when the key
itself is stored (the same success condition as `GetValue`), and then the
iterator sits on the slot holding exactly that key, whose value `GetValue`
returns; when the key is absent the default invalid (end) iterator comes
back even if larger keys are stored. -/
theorem c6_beginAt_exact (fuel : Nat) (st : TreeState) (k : Int) :
    ((beginAt fuel st k).isSome = (getValue fuel st k).isSome) ∧
    (∀ lid idx, beginAt fuel st k = some (lid, idx) →
      ∃ entries next par, fetch st lid = some (.leaf entries next par) ∧
        idx < entries.length ∧ (entries.getD idx (0, 0)).1 = k ∧
        getValue fuel st k = some (entries.getD idx (0, 0)).2) := by
  unfold beginAt getValue
  by_cases hroot : st.rootId = -1
  · simp [hroot]
  · rw [if_neg hroot, if_neg hroot]
    cases hleaf : getLeafPage fuel st (.byKey k) with
    | none => simp
    | some lid0 =>
      cases hfetch : fetch st lid0 with
      | none => simp [hfetch]
      | some node =>
        cases node with
        | internal e p => simp [hfetch]
        | leaf entries next parent =>
          simp only [hfetch]
          cases hki : getKeyIndexL entries k with
          | mk found idx =>
            cases found
            · simp [leafGetValue, hki]
            · obtain ⟨h0, hlen, hkey⟩ := getKeyIndexL_found entries k idx hki
              constructor
              · simp [leafGetValue, hki]
              · intro lid idx' hb
                simp only [hki, if_true] at hb
                rw [Option.some_inj] at hb
                have hlid : lid = lid0 := by
                  have := congrArg Prod.fst hb
                  simpa using this.symm
                have hidx : idx' = idx.toNat := by
                  have := congrArg Prod.snd hb
                  simpa using this.symm
                subst hlid
                subst hidx
                exact ⟨entries, next, parent, hfetch, hlen, hkey, by
                  simp [leafGetValue, hki]⟩

/-- Witness for the amended C6 at the one-leaf tree storing key 10: the
iterator of `Begin(10)` exists exactly as `GetValue(10)` succeeds, and sits
on slot 0 of leaf 1. -/
theorem c6_beginAt_exact_witness :
    ((beginAt 2 (⟨[(1, .leaf [(10, 10)] (-1) (-1))], 1, 2, 4, 4⟩ : TreeState) 10).isSome =
      (getValue 2 (⟨[(1, .leaf [(10, 10)] (-1) (-1))], 1, 2, 4, 4⟩ : TreeState) 10).isSome) ∧
    (∃ entries next par,
      fetch (⟨[(1, .leaf [(10, 10)] (-1) (-1))], 1, 2, 4, 4⟩ : TreeState) 1 =
          some (.leaf entries next par) ∧
        0 < entries.length ∧ (entries.getD 0 (0, 0)).1 = 10 ∧
        getValue 2 (⟨[(1, .leaf [(10, 10)] (-1) (-1))], 1, 2, 4, 4⟩ : TreeState) 10 =
          some (entries.getD 0 (0, 0)).2) :=
  ⟨(c6_beginAt_exact 2 ⟨[(1, .leaf [(10, 10)] (-1) (-1))], 1, 2, 4, 4⟩ 10).1,
   (c6_beginAt_exact 2 ⟨[(1, .leaf [(10, 10)] (-1) (-1))], 1, 2, 4, 4⟩ 10).2 1 0 (by decide)⟩

/-- C1 evaluated at the failing input: on a tree with leaf and internal
fan-out 4, insert 10, 20, 30, 40, 50, 60, 11, 12 and then remove 30.  The
removal underflows the leaf holding ⟨40⟩, and `CoalesceOrRedistribute` looks
the leaf up among its parent's children with `GetValueIndex` — a binary
search over the child page-id array [1, 5, 2, 4], which is not sorted; the
search misses page 2, the code falls back to index 0 (logging "Find child
logic is ERROR"), merges the wrong pair of leaves and deletes a live leaf.
Afterwards `GetValue(12)` fails and iteration from `Begin()` yields only
keys 10 and 11, although the keys inserted and not removed are
10, 11, 12, 20, 40, 50, 60. -/
theorem c1_wrong_sibling_eval :
    ((applyOps 20 (newTree 4 4)
        [.ins 10 10, .ins 20 20, .ins 30 30, .ins 40 40, .ins 50 50, .ins 60 60,
         .ins 11 11, .ins 12 12, .del 30]).map
      fun st => (getValue 20 st 12, iterate 20 st)) =
      some (none, [(10, 10), (11, 11)]) := by
  decide

end BPT
